import Mathlib

/-!
# COBS library (cobs.cpp / cobs.h): shallow embedding and verification

This file embeds the four operations of the COBS codec
(`getCOBSBufferSize`, `encodeCOBS`, `decodeCOBS`, `decodeCOBS_inplace`)
as executable Lean functions over `List Nat` (each element a byte value,
faithful for values < 256, matching the C `uint8_t` buffers), and proves
or refutes the frozen claims about them.

Modelling conventions:
* Buffers are `List Nat`.  The encoder's output buffer is modelled as the
  exact sequence of stores the C code performs, a `List (Nat × Nat)` of
  (index, value) pairs in execution order, because the encoder back-patches
  code bytes and (with `add_trailing_zero`) leaves an index unwritten, so a
  plain list of bytes could not express what the code actually writes.
* The decoder writes its output strictly sequentially from index 0, so its
  output is modelled as the plain list of written byte values in order.
* `size_t` arithmetic is `Nat`; the one place the C code can underflow a
  `size_t` subtraction (the decoder's `decoded_output - start - 1` when no
  byte was written) is modelled with an explicit `% 2 ^ 64`.
* Loops that consume a cursor are written with an explicit fuel argument so
  that the definitions compute by kernel reduction; the fuel is the length
  of the region the cursor scans, which bounds the iteration count because
  every iteration of the corresponding C loop advances the cursor by at
  least one byte.
-/

/-- `getCOBSBufferSize` from cobs.cpp (lines 103-107): worst-case output
size for a COBS encoding run, `input_size + input_size / 254 + 1`, plus one
when a trailing zero delimiter is requested. -/
def getCOBSBufferSize (input_size : Nat) (with_trailing_zero : Bool) : Nat :=
  let output_size := input_size + input_size / 254 + 1
  if with_trailing_zero then output_size + 1 else output_size

/-- The byte content the encoder's main loop produces, block-structured.
State of the C loop (cobs.cpp lines 170-186): `code` is the running code
counter (starts at 1), `cur` the literal bytes of the still-open block
(the bytes written after the block's reserved code-byte slot, in order;
`code = cur.length + 1` at every reachable state).  `FinishBlock` stores
`code` into the reserved slot, which completes the block `code :: cur`:
* a zero input byte finishes the block and opens a fresh one;
* a nonzero byte is copied (appended to `cur`) and `code` incremented;
  when `code` reaches 0xFF the block is finished unconditionally;
* at end of input the final `FinishBlock(code)` emits `code :: cur`.
`code` is a `uint8_t` in C; from the entry state `code = 1` it only takes
values 1..255 (it is reset upon reaching 255), so `Nat` is faithful. -/
def encodeLoop : List Nat → Nat → List Nat → List Nat
  | [], code, cur => code :: cur
  | b :: rest, code, cur =>
    if b = 0 then (code :: cur) ++ encodeLoop rest 1 []
    else if code + 1 = 255 then (255 :: (cur ++ [b])) ++ encodeLoop rest 1 []
    else encodeLoop rest (code + 1) (cur ++ [b])

/-- The exact store sequence of the encoder's loop plus the final
`FinishBlock`, from cobs.cpp lines 111 and 172-186.  Arguments mirror the
C pointer state as indices into the output buffer: `code` the running code
counter, `code_ptr` the index of the reserved code-byte slot of the open
block, `ob` (`output_buffer`) the index the next literal byte would be
stored at.  `FinishBlock(X)` is `*code_ptr = X, code_ptr = output_buffer++,
code = 1`: it stores `(code_ptr, X)`, then reserves the slot at the old
`ob` for the next code byte and advances `ob`.  Returns the (index, value)
stores in execution order together with the value of `output_buffer` after
the final `FinishBlock` (cobs.cpp line 186). -/
def encodeLoopW : List Nat → Nat → Nat → Nat → List (Nat × Nat) × Nat
  | [], code, code_ptr, ob => ([(code_ptr, code)], ob + 1)
  | b :: rest, code, code_ptr, ob =>
    if b = 0 then
      let r := encodeLoopW rest 1 ob (ob + 1)
      ((code_ptr, code) :: r.1, r.2)
    else if code + 1 = 255 then
      let r := encodeLoopW rest 1 (ob + 1) (ob + 2)
      ((ob, b) :: (code_ptr, 255) :: r.1, r.2)
    else
      let r := encodeLoopW rest (code + 1) code_ptr (ob + 1)
      ((ob, b) :: r.1, r.2)

/-- `encodeCOBS` from cobs.cpp (lines 139-193).  If the supplied output
capacity is below the worst case bound the call returns 0 having stored
nothing.  Otherwise the loop runs with `code_ptr = 0`, `output_buffer = 1`,
`code = 1` (lines 157-170); after the final `FinishBlock`,
`add_trailing_zero` stores a zero byte at the current `output_buffer`
index and advances it (lines 188-191); the return value is
`(output_buffer - output_start) - 1` (line 192).  The result is the pair
(store sequence, returned byte count). -/
def encodeCOBS (input : List Nat) (output_buffer_size : Nat)
    (add_trailing_zero : Bool) : List (Nat × Nat) × Nat :=
  if output_buffer_size < getCOBSBufferSize input.length add_trailing_zero then
    ([], 0)
  else
    let r := encodeLoopW input 1 0 1
    if add_trailing_zero then (r.1 ++ [(r.2, 0)], (r.2 + 1) - 1)
    else (r.1, r.2 - 1)

/-- The decoder's main loop, from cobs.cpp lines 264-296, on the suffix of
the input that the cursor has not consumed yet.  Each iteration: stop if
the cursor is at the end or the byte under it is zero; otherwise read the
code byte, clamp it to the number of remaining input bytes (lines 270-272,
`min b (rest.length + 1)` since the cursor still points at the code byte),
copy `code - 1` literal bytes to the output, and append a reconstructed
zero byte when `code < 0xFF` (lines 292-295).  Returns the list of bytes
stored to the output, in order.  The fuel is decremented once per
iteration; called with fuel = suffix length it never runs out, because
each iteration consumes `code ≥ 1` input bytes. -/
def decodeLoop : Nat → List Nat → List Nat
  | 0, _ => []
  | _ + 1, [] => []
  | fuel + 1, b :: rest =>
    if b = 0 then []
    else
      let code := min b (rest.length + 1)
      rest.take (code - 1) ++ (if code < 255 then [0] else []) ++
        decodeLoop fuel (rest.drop (code - 1))

/-- `decodeCOBS` from cobs.cpp (lines 241-298).  The declared input region
is the list `encoded_input` (so `max_input_length = encoded_input.length`).
The two length checks (lines 243-249) return 0 before anything is stored.
Otherwise the loop runs and the function returns
`(decoded_output - output_buffer_start) - 1` (line 297): a `size_t`
subtraction, so when the loop stored nothing the result wraps around to
`2 ^ 64 - 1`; modelled as `(stores + (2 ^ 64 - 1)) % 2 ^ 64`.  The result
is the pair (bytes stored to the output in order, returned count); the
store list is not truncated at `max_output_length`, it is the sequence of
stores the C code performs (which can overrun the output buffer). -/
def decodeCOBS (encoded_input : List Nat) (max_output_length : Nat) :
    List Nat × Nat :=
  if encoded_input.length = 0 ∨ max_output_length = 0 then ([], 0)
  else if max_output_length < encoded_input.length - 1 then ([], 0)
  else
    let w := decodeLoop encoded_input.length encoded_input
    (w, (w.length + (2 ^ 64 - 1)) % 2 ^ 64)

/-- Modelled from the spec: the loop of the precompute-once decoding
algorithm of spec section 4.3, which no function of the sources implements
(`decodeCOBS` in cobs.cpp re-tests for the sentinel inside its loop).  It
runs on the input truncated at the effective end boundary.  Per block: read
the code byte, clamp it so it claims no more literal bytes than remain
before the boundary, copy `code - 1` literal bytes; if the cursor has
reached the boundary, stop; otherwise, when `code < 255`, emit one
reconstructed sentinel byte and continue.  Fuel as in `decodeLoop`. -/
def specOnceLoop : Nat → List Nat → List Nat
  | 0, _ => []
  | _ + 1, [] => []
  | fuel + 1, b :: rest =>
    let code := min b (rest.length + 1)
    let lits := rest.take (code - 1)
    let rest2 := rest.drop (code - 1)
    if rest2.isEmpty then lits
    else lits ++ (if code < 255 then [0] else []) ++ specOnceLoop fuel rest2

/-- Modelled from the spec: the decoder of spec section 4.3 with the
termination policy of its note — the effective end boundary is computed
once, up front, as the position of the first sentinel byte within the
declared length, or the declared length if none occurs.  The precondition
checks are the spec's (fails, storing nothing, when the input length is
below 2, the output capacity is 0, or the output capacity is below input
length minus 1); the result is the number of bytes written. -/
def decodeCOBS_specOnce (encoded_input : List Nat) (max_output_length : Nat) :
    List Nat × Nat :=
  if encoded_input.length < 2 ∨ max_output_length = 0 ∨
      max_output_length < encoded_input.length - 1 then ([], 0)
  else
    let t := encoded_input.takeWhile (fun b => b != 0)
    let w := specOnceLoop t.length t
    (w, w.length)

/-- Sequential copy of `k` bytes from index `src` to index `dst` within one
buffer, one byte per step, as the decoder's inner `for` loop does it
(cobs.cpp lines 275-279) when input and output alias the same storage. -/
def copyLits (buf : List Nat) (src dst : Nat) : Nat → List Nat
  | 0 => buf
  | k + 1 => copyLits (buf.set dst (buf.getD src 0)) (src + 1) (dst + 1) k

/-- Modelled from the spec: the main loop of `decodeCOBS` executed with the
output aliased to the input (spec section 4.4), over a single buffer with a
read cursor `r` and a write cursor `w`.  Each iteration is the iteration of
`decodeLoop` with every load and store going through the one buffer: stop
when the read cursor is at the end or over a zero byte; else read and clamp
the code byte, copy `code - 1` literal bytes from `r + 1` to `w`, and when
`code < 255` store one reconstructed zero byte.  Returns the final buffer
and the final write cursor.  Fuel as in `decodeLoop`. -/
def inplaceLoop : Nat → List Nat → Nat → Nat → List Nat × Nat
  | 0, buf, _, w => (buf, w)
  | fuel + 1, buf, r, w =>
    if r < buf.length ∧ buf.getD r 0 ≠ 0 then
      let code := min (buf.getD r 0) (buf.length - r)
      let buf2 := copyLits buf (r + 1) w (code - 1)
      if code < 255 then
        inplaceLoop fuel (buf2.set (w + (code - 1)) 0) (r + code) (w + code)
      else
        inplaceLoop fuel buf2 (r + code) (w + (code - 1))
    else (buf, w)

/-- Modelled from the spec: `decodeCOBS_inplace` is declared in cobs.h
(line 57) but has no definition in the sources; per spec section 4.4 it has
the identical contract and algorithm as `decodeCOBS` with the output
aliased to the input, over a buffer of `inputlen` bytes.  With
`max_output_length = max_input_length` the only length check that can fire
is `max_input_length == 0`; the return value is the same `size_t`
subtraction `(write cursor) - 1` as in `decodeCOBS`. -/
def decodeCOBS_inplace (buf : List Nat) : List Nat × Nat :=
  if buf.length = 0 then (buf, 0)
  else
    let r := inplaceLoop buf.length buf 0 0
    (r.1, (r.2 + (2 ^ 64 - 1)) % 2 ^ 64)

/-- Proof helper (not part of the embedding): store the bytes of `vals` at
consecutive indices `w, w + 1, ...` of `buf`. -/
def overlay (buf : List Nat) (w : Nat) : List Nat → List Nat
  | [] => buf
  | v :: vs => overlay (buf.set w v) (w + 1) vs

/-! ## Helper lemmas

`inplaceLoop_spec` below is the aliasing-safety argument of spec section
4.4 made formal: at every state of the in-place loop the write cursor
trails the read cursor, so every load sees the original buffer contents
and the in-place run performs exactly the store sequence of the
two-buffer loop `decodeLoop`, laid down from the write cursor on. -/

theorem lookup_cons (q p v : Nat) (ws : List (Nat × Nat)) :
    List.lookup q ((p, v) :: ws) = if q = p then some v else List.lookup q ws := by
  simp only [List.lookup]
  by_cases h : q = p
  · simp [h]
  · simp [h, beq_false_of_ne h]

theorem getD_eq_getElem (l : List Nat) (i : Nat) (h : i < l.length) :
    l.getD i 0 = l[i] := by
  rw [List.getD_eq_getElem?_getD, List.getElem?_eq_getElem h]; rfl

theorem set_drop_of_lt (l : List Nat) (p v n : Nat) (h : p < n) :
    (l.set p v).drop n = l.drop n := by
  apply List.ext_getElem?
  intro j
  rw [List.getElem?_drop, List.getElem?_drop, List.getElem?_set_ne (by omega)]

theorem overlay_length (vs : List Nat) (buf : List Nat) (w : Nat) :
    (overlay buf w vs).length = buf.length := by
  induction vs generalizing buf w with
  | nil => rfl
  | cons v vs ih => rw [overlay, ih, List.length_set]

theorem overlay_append (a b : List Nat) (buf : List Nat) (w : Nat) :
    overlay buf w (a ++ b) = overlay (overlay buf w a) (w + a.length) b := by
  induction a generalizing buf w with
  | nil => simp [overlay]
  | cons v vs ih =>
    rw [List.cons_append, overlay, overlay, ih]
    have h : w + 1 + vs.length = w + (v :: vs).length := by
      simp only [List.length_cons]; omega
    rw [h]

theorem overlay_drop_of_le (vs : List Nat) (buf : List Nat) (w n : Nat)
    (h : w + vs.length ≤ n) : (overlay buf w vs).drop n = buf.drop n := by
  induction vs generalizing buf w with
  | nil => rfl
  | cons v vs ih =>
    rw [overlay, ih _ _ (by simp at h; omega), set_drop_of_lt _ _ _ _ (by simp at h; omega)]

theorem overlay_getElem? (vs : List Nat) (buf : List Nat) (w p : Nat)
    (hlen : w + vs.length ≤ buf.length) :
    (overlay buf w vs)[p]? =
      if w ≤ p ∧ p < w + vs.length then vs[p - w]? else buf[p]? := by
  induction vs generalizing buf w with
  | nil =>
    rw [if_neg (by simp only [List.length_nil]; omega)]; rfl
  | cons v vs ih =>
    simp only [List.length_cons] at hlen
    rw [overlay, ih _ _ (by rw [List.length_set]; omega)]
    by_cases h1 : w + 1 ≤ p ∧ p < w + 1 + vs.length
    · rw [if_pos h1, if_pos (by simp only [List.length_cons]; omega)]
      have hp : p - w = (p - (w + 1)) + 1 := by omega
      rw [hp, List.getElem?_cons_succ]
    · rw [if_neg h1]
      by_cases h2 : p = w
      · subst h2
        rw [if_pos (by simp only [List.length_cons]; omega),
          List.getElem?_set_eq_of_lt _ (by omega)]
        simp
      · rw [if_neg (by simp only [List.length_cons]; omega),
          List.getElem?_set_ne (by omega)]

theorem decodeLoop_nil (fuel : Nat) : decodeLoop fuel [] = [] := by
  cases fuel <;> rfl

theorem decodeLoop_fuel_irrel (f1 : Nat) : ∀ (f2 : Nat) (suf : List Nat),
    suf.length ≤ f1 → suf.length ≤ f2 → decodeLoop f1 suf = decodeLoop f2 suf := by
  induction f1 with
  | zero =>
    intro f2 suf h1 h2
    have hnil : suf = [] := List.eq_nil_of_length_eq_zero (by omega)
    subst hnil
    rw [decodeLoop_nil, decodeLoop_nil]
  | succ f1 ih =>
    intro f2 suf h1 h2
    cases suf with
    | nil => rw [decodeLoop_nil, decodeLoop_nil]
    | cons b rest =>
      cases f2 with
      | zero => simp at h2
      | succ f2 =>
        simp only [decodeLoop]
        by_cases hb : b = 0
        · rw [if_pos hb, if_pos hb]
        · rw [if_neg hb, if_neg hb]
          rw [ih f2 (rest.drop (min b (rest.length + 1) - 1))
            (by rw [List.length_drop]; simp at h1; omega)
            (by rw [List.length_drop]; simp at h2; omega)]

theorem encodeLoop_length_ge (s : List Nat) : ∀ (code : Nat) (cur : List Nat),
    cur.length + s.length + 1 ≤ (encodeLoop s code cur).length := by
  induction s with
  | nil => intro code cur; simp [encodeLoop]
  | cons b rest ih =>
    intro code cur
    rw [encodeLoop]
    by_cases hb : b = 0
    · rw [if_pos hb]
      have h := ih 1 []
      simp only [List.length_append, List.length_cons, List.length_nil, List.length_nil] at h ⊢
      omega
    · rw [if_neg hb]
      by_cases hc : code + 1 = 255
      · rw [if_pos hc]
        have h := ih 1 []
        simp only [List.length_append, List.length_cons, List.length_nil] at h ⊢
        omega
      · rw [if_neg hc]
        have h := ih (code + 1) (cur ++ [b])
        simp only [List.length_append, List.length_cons, List.length_nil] at h ⊢
        omega

theorem decodeLoop_encodeLoop (s : List Nat) : ∀ (cur : List Nat) (code fuel : Nat),
    code = cur.length + 1 → code ≤ 254 → (encodeLoop s code cur).length ≤ fuel →
    decodeLoop fuel (encodeLoop s code cur) = cur ++ s ++ [0] := by
  induction s with
  | nil =>
    intro cur code fuel hcode hle hfuel
    rw [encodeLoop] at hfuel ⊢
    cases fuel with
    | zero => simp at hfuel
    | succ fuel =>
      simp only [decodeLoop]
      rw [if_neg (by omega)]
      have hmin : min code (cur.length + 1) = code := by omega
      rw [hmin]
      have htake : cur.take (code - 1) = cur := by
        rw [hcode]; simp
      have hdrop : cur.drop (code - 1) = [] := by
        rw [hcode]; simp
      rw [htake, hdrop, if_pos (by omega), decodeLoop_nil]
      simp
  | cons b rest ih =>
    intro cur code fuel hcode hle hfuel
    by_cases hb : b = 0
    · subst hb
      rw [encodeLoop, if_pos rfl, List.cons_append] at hfuel ⊢
      cases fuel with
      | zero => simp at hfuel
      | succ fuel =>
        simp only [decodeLoop]
        rw [if_neg (by omega)]
        have hmin : min code ((cur ++ encodeLoop rest 1 []).length + 1) = code := by
          simp only [List.length_append]; omega
        rw [hmin]
        have htake : (cur ++ encodeLoop rest 1 []).take (code - 1) = cur := by
          have h1 : code - 1 = cur.length := by omega
          rw [h1, List.take_left]
        have hdrop : (cur ++ encodeLoop rest 1 []).drop (code - 1) = encodeLoop rest 1 [] := by
          have h1 : code - 1 = cur.length := by omega
          rw [h1, List.drop_left]
        rw [htake, hdrop, if_pos (by omega)]
        rw [ih [] 1 fuel rfl (by omega) (by simp at hfuel ⊢; omega)]
        simp
    · rw [encodeLoop, if_neg hb] at hfuel ⊢
      by_cases hc : code + 1 = 255
      · rw [if_pos hc, List.cons_append] at hfuel ⊢
        cases fuel with
        | zero => simp at hfuel
        | succ fuel =>
          simp only [decodeLoop]
          rw [if_neg (by omega)]
          have hlen : ((cur ++ [b]) ++ encodeLoop rest 1 []).length + 1 =
              255 + (encodeLoop rest 1 []).length := by
            simp only [List.length_append, List.length_cons, List.length_nil]; omega
          have hmin : min 255 (((cur ++ [b]) ++ encodeLoop rest 1 []).length + 1) = 255 := by
            omega
          rw [hmin]
          have htake : ((cur ++ [b]) ++ encodeLoop rest 1 []).take (255 - 1) = cur ++ [b] := by
            have h1 : (255 : Nat) - 1 = (cur ++ [b]).length := by
              simp only [List.length_append, List.length_cons, List.length_nil]; omega
            rw [h1, List.take_left]
          have hdrop : ((cur ++ [b]) ++ encodeLoop rest 1 []).drop (255 - 1) =
              encodeLoop rest 1 [] := by
            have h1 : (255 : Nat) - 1 = (cur ++ [b]).length := by
              simp only [List.length_append, List.length_cons, List.length_nil]; omega
            rw [h1, List.drop_left]
          rw [htake, hdrop, if_neg (by omega)]
          rw [ih [] 1 fuel rfl (by omega) (by simp at hfuel ⊢; omega)]
          simp
      · rw [if_neg hc] at hfuel ⊢
        rw [ih (cur ++ [b]) (code + 1) fuel (by simp; omega) (by omega) hfuel]
        simp

theorem copyLits_length (k : Nat) (buf : List Nat) (src dst : Nat) :
    (copyLits buf src dst k).length = buf.length := by
  induction k generalizing buf src dst with
  | zero => rfl
  | succ k ih => rw [copyLits, ih, List.length_set]

theorem copyLits_eq_overlay (k : Nat) (buf : List Nat) (src dst : Nat)
    (hds : dst < src) (hk : src + k ≤ buf.length) :
    copyLits buf src dst k = overlay buf dst ((buf.drop src).take k) := by
  induction k generalizing buf src dst with
  | zero => rfl
  | succ k ih =>
    have hsrc : src < buf.length := by omega
    rw [copyLits, ih _ _ _ (by omega) (by rw [List.length_set]; omega)]
    rw [set_drop_of_lt _ _ _ _ (by omega)]
    rw [List.drop_eq_getElem_cons hsrc, List.take_succ_cons]
    rw [overlay, getD_eq_getElem _ _ hsrc]

theorem drop_cons_of_drop (buf : List Nat) (r : Nat) (b : Nat) (rest : List Nat)
    (h : buf.drop r = b :: rest) : buf.drop (r + 1) = rest := by
  have h2 : (buf.drop r).drop 1 = buf.drop (r + 1) := List.drop_drop 1 r buf
  rw [h] at h2
  simpa using h2.symm

theorem getD_of_drop (buf : List Nat) (r : Nat) (b : Nat) (rest : List Nat)
    (h : buf.drop r = b :: rest) : buf.getD r 0 = b := by
  have h0 : (buf.drop r)[0]? = some b := by rw [h]; simp
  rw [List.getElem?_drop, Nat.add_zero] at h0
  rw [List.getD_eq_getElem?_getD, h0]
  rfl

theorem length_of_drop (buf : List Nat) (r : Nat) (b : Nat) (rest : List Nat)
    (h : buf.drop r = b :: rest) : buf.length = r + rest.length + 1 := by
  have h2 := List.length_drop r buf
  rw [h] at h2
  simp only [List.length_cons] at h2
  have h3 : r ≤ buf.length := by
    by_contra hcon
    rw [List.drop_of_length_le (by omega)] at h
    exact absurd h (by simp)
  omega


theorem inplaceLoop_spec (fuel : Nat) : ∀ (buf : List Nat) (r w : Nat) (suf : List Nat),
    buf.drop r = suf → w ≤ r → suf.length ≤ fuel →
    inplaceLoop fuel buf r w =
      (overlay buf w (decodeLoop suf.length suf),
        w + (decodeLoop suf.length suf).length) := by
  induction fuel with
  | zero =>
    intro buf r w suf hdrop hwr hfuel
    have hnil : suf = [] := List.eq_nil_of_length_eq_zero (by omega)
    subst hnil
    rw [inplaceLoop, decodeLoop_nil]
    simp [overlay]
  | succ fuel ih =>
    intro buf r w suf hdrop hwr hfuel
    cases suf with
    | nil =>
      rw [decodeLoop_nil]
      have hlen : buf.length ≤ r := by
        have h2 := List.length_drop r buf
        rw [hdrop] at h2
        simp only [List.length_nil] at h2
        by_contra hcon
        omega
      simp only [inplaceLoop]
      rw [if_neg (fun hcon => absurd hcon.1 (by omega))]
      simp [overlay]
    | cons b rest =>
      have hblen : buf.length = r + rest.length + 1 := length_of_drop buf r b rest hdrop
      have hgd : buf.getD r 0 = b := getD_of_drop buf r b rest hdrop
      have hdrop1 : buf.drop (r + 1) = rest := drop_cons_of_drop buf r b rest hdrop
      by_cases hb : b = 0
      · have hD : decodeLoop (b :: rest).length (b :: rest) = [] := by
          simp only [List.length_cons, decodeLoop]
          rw [if_pos hb]
        rw [hD]
        simp only [inplaceLoop]
        rw [if_neg (fun hcon => hcon.2 (hgd.trans hb))]
        simp [overlay]
      · have hbne : b ≠ 0 := hb
        have hmin : min (buf.getD r 0) (buf.length - r) = min b (rest.length + 1) := by
          rw [hgd]; congr 1; omega
        have hc1 : 1 ≤ min b (rest.length + 1) := by omega
        have hcle : min b (rest.length + 1) ≤ rest.length + 1 := by omega
        have htk : (rest.take (min b (rest.length + 1) - 1)).length =
            min b (rest.length + 1) - 1 := by
          rw [List.length_take]; omega
        have hcopy : copyLits buf (r + 1) w (min b (rest.length + 1) - 1) =
            overlay buf w (rest.take (min b (rest.length + 1) - 1)) := by
          rw [copyLits_eq_overlay _ _ _ _ (by omega) (by omega), hdrop1]
        have hdrop2 : buf.drop (r + min b (rest.length + 1)) =
            rest.drop (min b (rest.length + 1) - 1) := by
          have h2 : (buf.drop (r + 1)).drop (min b (rest.length + 1) - 1) =
              buf.drop ((r + 1) + (min b (rest.length + 1) - 1)) :=
            List.drop_drop _ _ buf
          rw [hdrop1] at h2
          rw [h2]
          congr 1
          omega
        have hfuel2 : (rest.drop (min b (rest.length + 1) - 1)).length ≤ fuel := by
          rw [List.length_drop]
          simp only [List.length_cons] at hfuel
          omega
        have hD : decodeLoop (b :: rest).length (b :: rest) =
            (rest.take (min b (rest.length + 1) - 1) ++
              (if min b (rest.length + 1) < 255 then [0] else [])) ++
              decodeLoop (rest.drop (min b (rest.length + 1) - 1)).length
                (rest.drop (min b (rest.length + 1) - 1)) := by
          simp only [List.length_cons, decodeLoop]
          rw [if_neg hb,
            decodeLoop_fuel_irrel rest.length (rest.drop (min b (rest.length + 1) - 1)).length
              (rest.drop (min b (rest.length + 1) - 1))
              (by rw [List.length_drop]; omega) (le_refl _)]
        simp only [inplaceLoop]
        rw [if_pos ⟨by omega, by rw [hgd]; exact hbne⟩]
        rw [hmin, hcopy, hD]
        by_cases hsplit : min b (rest.length + 1) < 255
        · rw [if_pos hsplit, if_pos hsplit]
          have hset : (overlay buf w (rest.take (min b (rest.length + 1) - 1))).set
              (w + (min b (rest.length + 1) - 1)) 0 =
              overlay buf w (rest.take (min b (rest.length + 1) - 1) ++ [0]) := by
            rw [overlay_append, htk]
            rfl
          rw [hset]
          rw [ih _ _ _ (rest.drop (min b (rest.length + 1) - 1))
            (by rw [overlay_drop_of_le _ _ _ _
                (by rw [List.length_append, htk]
                    simp only [List.length_cons, List.length_nil]
                    omega)]
                exact hdrop2)
            (by omega) hfuel2]
          have hlen2 : (rest.take (min b (rest.length + 1) - 1) ++ [0]).length =
              min b (rest.length + 1) := by
            rw [List.length_append, htk]
            simp only [List.length_cons, List.length_nil]
            omega
          simp only [Prod.mk.injEq]
          refine ⟨?_, ?_⟩
          · conv_rhs => rw [overlay_append]
            rw [hlen2]
          · simp only [List.length_append, htk, List.length_cons, List.length_nil]
            omega
        · rw [if_neg hsplit, if_neg hsplit]
          rw [ih _ _ _ (rest.drop (min b (rest.length + 1) - 1))
            (by rw [overlay_drop_of_le _ _ _ _ (by rw [htk]; omega)]
                exact hdrop2)
            (by omega) hfuel2]
          simp only [Prod.mk.injEq, List.append_nil]
          refine ⟨?_, ?_⟩
          · conv_rhs => rw [overlay_append]
            rw [htk]
          · simp only [List.length_append, htk]
            omega

theorem encodeLoop_nil (code : Nat) (cur : List Nat) :
    encodeLoop [] code cur = code :: cur := rfl

theorem encodeLoop_zero (rest : List Nat) (code : Nat) (cur : List Nat) :
    encodeLoop (0 :: rest) code cur = (code :: cur) ++ encodeLoop rest 1 [] := rfl

theorem encodeLoop_ff (b : Nat) (rest : List Nat) (code : Nat) (cur : List Nat)
    (hb : b ≠ 0) (hc : code + 1 = 255) :
    encodeLoop (b :: rest) code cur = (255 :: (cur ++ [b])) ++ encodeLoop rest 1 [] := by
  rw [encodeLoop, if_neg hb, if_pos hc]

theorem encodeLoop_grow (b : Nat) (rest : List Nat) (code : Nat) (cur : List Nat)
    (hb : b ≠ 0) (hc : code + 1 ≠ 255) :
    encodeLoop (b :: rest) code cur = encodeLoop rest (code + 1) (cur ++ [b]) := by
  rw [encodeLoop, if_neg hb, if_neg hc]

theorem encodeLoopW_nil_fst (code cp ob : Nat) :
    (encodeLoopW [] code cp ob).1 = [(cp, code)] := rfl

theorem encodeLoopW_nil_snd (code cp ob : Nat) :
    (encodeLoopW [] code cp ob).2 = ob + 1 := rfl

theorem encodeLoopW_zero_fst (rest : List Nat) (code cp ob : Nat) :
    (encodeLoopW (0 :: rest) code cp ob).1 =
      (cp, code) :: (encodeLoopW rest 1 ob (ob + 1)).1 := rfl

theorem encodeLoopW_zero_snd (rest : List Nat) (code cp ob : Nat) :
    (encodeLoopW (0 :: rest) code cp ob).2 =
      (encodeLoopW rest 1 ob (ob + 1)).2 := rfl

theorem encodeLoopW_ff_fst (b : Nat) (rest : List Nat) (code cp ob : Nat)
    (hb : b ≠ 0) (hc : code + 1 = 255) :
    (encodeLoopW (b :: rest) code cp ob).1 =
      (ob, b) :: (cp, 255) :: (encodeLoopW rest 1 (ob + 1) (ob + 2)).1 := by
  simp only [encodeLoopW, if_neg hb, if_pos hc]

theorem encodeLoopW_ff_snd (b : Nat) (rest : List Nat) (code cp ob : Nat)
    (hb : b ≠ 0) (hc : code + 1 = 255) :
    (encodeLoopW (b :: rest) code cp ob).2 =
      (encodeLoopW rest 1 (ob + 1) (ob + 2)).2 := by
  simp only [encodeLoopW, if_neg hb, if_pos hc]

theorem encodeLoopW_grow_fst (b : Nat) (rest : List Nat) (code cp ob : Nat)
    (hb : b ≠ 0) (hc : code + 1 ≠ 255) :
    (encodeLoopW (b :: rest) code cp ob).1 =
      (ob, b) :: (encodeLoopW rest (code + 1) cp (ob + 1)).1 := by
  simp only [encodeLoopW, if_neg hb, if_neg hc]

theorem encodeLoopW_grow_snd (b : Nat) (rest : List Nat) (code cp ob : Nat)
    (hb : b ≠ 0) (hc : code + 1 ≠ 255) :
    (encodeLoopW (b :: rest) code cp ob).2 =
      (encodeLoopW rest (code + 1) cp (ob + 1)).2 := by
  simp only [encodeLoopW, if_neg hb, if_neg hc]

theorem encodeLoop_shape (s : List Nat) : ∀ (code : Nat) (cur : List Nat),
    ∃ c t, encodeLoop s code cur = c :: (cur ++ t) := by
  induction s with
  | nil =>
    intro code cur
    exact ⟨code, [], by rw [encodeLoop_nil]; simp⟩
  | cons b rest ih =>
    intro code cur
    by_cases hb : b = 0
    · subst hb
      exact ⟨code, encodeLoop rest 1 [], by rw [encodeLoop_zero]; simp⟩
    · by_cases hc : code + 1 = 255
      · exact ⟨255, [b] ++ encodeLoop rest 1 [], by rw [encodeLoop_ff _ _ _ _ hb hc]; simp⟩
      · obtain ⟨c, t, h⟩ := ih (code + 1) (cur ++ [b])
        exact ⟨c, [b] ++ t, by rw [encodeLoop_grow _ _ _ _ hb hc, h]; simp⟩

theorem encodeLoopW_spec (s : List Nat) : ∀ (cur : List Nat) (code cp : Nat),
    code = cur.length + 1 →
    (encodeLoopW s code cp (cp + code)).2 = cp + (encodeLoop s code cur).length + 1 ∧
    ∀ p, List.lookup p (encodeLoopW s code cp (cp + code)).1 =
      if p = cp ∨ (cp + code ≤ p ∧ p < cp + (encodeLoop s code cur).length)
      then (encodeLoop s code cur)[p - cp]? else none := by
  induction s with
  | nil =>
    intro cur code cp hcode
    rw [encodeLoop_nil]
    refine ⟨by rw [encodeLoopW_nil_snd]; simp only [List.length_cons]; omega, fun p => ?_⟩
    rw [encodeLoopW_nil_fst, lookup_cons]
    by_cases hp : p = cp
    · subst hp
      rw [if_pos rfl, if_pos (Or.inl rfl), Nat.sub_self]
      simp
    · rw [if_neg hp, if_neg (by simp only [List.length_cons]; omega)]
      rfl
  | cons b rest ih =>
    intro cur code cp hcode
    have hcode1 : 1 ≤ code := by omega
    by_cases hb : b = 0
    · subst hb
      rw [encodeLoop_zero]
      obtain ⟨ih1, ih2⟩ := ih [] 1 (cp + code) rfl
      have hE1 : 1 ≤ (encodeLoop rest 1 []).length := by
        have h := encodeLoop_length_ge rest 1 []
        simp only [List.length_nil] at h
        omega
      refine ⟨?_, fun p => ?_⟩
      · rw [encodeLoopW_zero_snd, ih1]
        simp only [List.length_append, List.length_cons]
        omega
      · rw [encodeLoopW_zero_fst, lookup_cons]
        by_cases hp : p = cp
        · subst hp
          rw [if_pos rfl, if_pos (Or.inl rfl), Nat.sub_self]
          simp
        · rw [if_neg hp, ih2 p]
          by_cases hq : cp + code ≤ p ∧ p < cp + code + (encodeLoop rest 1 []).length
          · rw [if_pos (by omega), if_pos (Or.inr ⟨hq.1, by
              simp only [List.length_append, List.length_cons]
              omega⟩)]
            rw [List.getElem?_append_right (by simp only [List.length_cons]; omega)]
            congr 1
            simp only [List.length_cons]
            omega
          · rw [if_neg (by omega), if_neg (by
              simp only [List.length_append, List.length_cons]
              omega)]
    · by_cases hc : code + 1 = 255
      · rw [encodeLoop_ff _ _ _ _ hb hc]
        obtain ⟨ih1, ih2⟩ := ih [] 1 (cp + code + 1) rfl
        have hfix : cp + code + 1 + 1 = cp + code + 2 := by omega
        rw [hfix] at ih1 ih2
        have hE1 : 1 ≤ (encodeLoop rest 1 []).length := by
          have h := encodeLoop_length_ge rest 1 []
          simp only [List.length_nil] at h
          omega
        have hblock : (255 :: (cur ++ [b])).length = code + 1 := by
          simp only [List.length_cons, List.length_append, List.length_nil]
          omega
        refine ⟨?_, fun p => ?_⟩
        · rw [encodeLoopW_ff_snd _ _ _ _ _ hb hc, ih1]
          simp only [List.length_append, List.length_cons, List.length_append,
            List.length_nil]
          omega
        · rw [encodeLoopW_ff_fst _ _ _ _ _ hb hc, lookup_cons, lookup_cons]
          by_cases hp1 : p = cp + code
          · subst hp1
            rw [if_pos rfl, if_pos (Or.inr ⟨by omega, by
              simp only [List.length_append, List.length_cons, List.length_append,
                List.length_nil]
              omega⟩)]
            rw [List.getElem?_append_left (by rw [hblock]; omega)]
            have hcsub : cp + code - cp = (code - 1) + 1 := by omega
            rw [hcsub, List.getElem?_cons_succ]
            rw [List.getElem?_append_right (by omega)]
            have hcsub2 : code - 1 - cur.length = 0 := by omega
            rw [hcsub2]
            simp
          · rw [if_neg hp1]
            by_cases hp : p = cp
            · subst hp
              rw [if_pos rfl, if_pos (Or.inl rfl), Nat.sub_self]
              simp
            · rw [if_neg hp, ih2 p]
              by_cases hq : cp + code + 1 ≤ p ∧ p < cp + code + 1 + (encodeLoop rest 1 []).length
              · rw [if_pos (by omega), if_pos (Or.inr ⟨by omega, by
                  simp only [List.length_append, List.length_cons, List.length_append,
                    List.length_nil]
                  omega⟩)]
                rw [List.getElem?_append_right (by rw [hblock]; omega)]
                congr 1
                rw [hblock]
                omega
              · rw [if_neg (by omega), if_neg (by
                  simp only [List.length_append, List.length_cons, List.length_append,
                    List.length_nil]
                  omega)]
      · rw [encodeLoop_grow _ _ _ _ hb hc]
        obtain ⟨ih1, ih2⟩ := ih (cur ++ [b]) (code + 1) cp (by
          simp only [List.length_append, List.length_cons, List.length_nil]
          omega)
        have hfix : cp + (code + 1) = cp + code + 1 := by omega
        rw [hfix] at ih1 ih2
        have hlen : code + 1 ≤ (encodeLoop rest (code + 1) (cur ++ [b])).length := by
          have h := encodeLoop_length_ge rest (code + 1) (cur ++ [b])
          simp only [List.length_append, List.length_cons, List.length_nil] at h
          omega
        obtain ⟨c, t, hshape⟩ := encodeLoop_shape rest (code + 1) (cur ++ [b])
        refine ⟨?_, fun p => ?_⟩
        · rw [encodeLoopW_grow_snd _ _ _ _ _ hb hc, ih1]
        · rw [encodeLoopW_grow_fst _ _ _ _ _ hb hc, lookup_cons]
          by_cases hp1 : p = cp + code
          · subst hp1
            rw [if_pos rfl, if_pos (Or.inr ⟨le_refl _, by omega⟩)]
            rw [hshape]
            have hcsub : cp + code - cp = (code - 1) + 1 := by omega
            rw [hcsub, List.getElem?_cons_succ]
            rw [List.getElem?_append_left (by
              simp only [List.length_append, List.length_cons, List.length_nil]
              omega)]
            rw [List.getElem?_append_right (by omega)]
            have hcsub2 : code - 1 - cur.length = 0 := by omega
            rw [hcsub2]
            simp
          · rw [if_neg hp1, ih2 p]
            by_cases hp : p = cp
            · subst hp
              rw [if_pos (Or.inl rfl), if_pos (Or.inl rfl)]
            · by_cases hq : cp + code + 1 ≤ p ∧
                  p < cp + (encodeLoop rest (code + 1) (cur ++ [b])).length
              · rw [if_pos (Or.inr hq), if_pos (Or.inr ⟨by omega, hq.2⟩)]
              · rw [if_neg (by omega), if_neg (by omega)]

theorem encodeLoopW_top_snd (s : List Nat) :
    (encodeLoopW s 1 0 1).2 = (encodeLoop s 1 []).length + 1 := by
  have h := (encodeLoopW_spec s [] 1 0 rfl).1
  simpa using h

theorem encodeLoopW_top_lookup (s : List Nat) (p : Nat) :
    List.lookup p (encodeLoopW s 1 0 1).1 = (encodeLoop s 1 [])[p]? := by
  have hlen : 1 ≤ (encodeLoop s 1 []).length := by
    have h := encodeLoop_length_ge s 1 []
    simp only [List.length_nil] at h
    omega
  have h := (encodeLoopW_spec s [] 1 0 rfl).2 p
  simp only [Nat.zero_add, Nat.sub_zero] at h
  rw [h]
  by_cases hp : p < (encodeLoop s 1 []).length
  · rw [if_pos (by omega)]
  · rw [if_neg (by omega), eq_comm]
    exact List.getElem?_eq_none (by omega)

theorem encodeCOBS_false_snd (s : List Nat) (cap : Nat)
    (hcap : ¬ cap < getCOBSBufferSize s.length false) :
    (encodeCOBS s cap false).2 = (encodeLoop s 1 []).length := by
  rw [encodeCOBS, if_neg hcap]
  simp only [Bool.false_eq_true, if_false, encodeLoopW_top_snd]
  omega

theorem encodeCOBS_false_fst (s : List Nat) (cap : Nat)
    (hcap : ¬ cap < getCOBSBufferSize s.length false) (p : Nat) :
    List.lookup p (encodeCOBS s cap false).1 = (encodeLoop s 1 [])[p]? := by
  rw [encodeCOBS, if_neg hcap]
  simp only [Bool.false_eq_true, if_false]
  exact encodeLoopW_top_lookup s p

theorem overlay_eq_append (vs : List Nat) (buf : List Nat)
    (hlen : vs.length ≤ buf.length) :
    overlay buf 0 vs = vs ++ buf.drop vs.length := by
  apply List.ext_getElem?
  intro n
  rw [overlay_getElem? vs buf 0 n (by omega)]
  by_cases hn : n < vs.length
  · rw [if_pos (by omega), Nat.sub_zero, List.getElem?_append_left hn]
  · rw [if_neg (by omega), List.getElem?_append_right (by omega), List.getElem?_drop]
    congr 1
    omega

/-! ## Claim theorems -/

/-- C1 (code_bug evidence): encoding the empty input with the trailing
delimiter requested and the recommended capacity 2 returns 2, but the
stores are 0x01 at index 0 and 0x00 at index 2: index 1 inside the
returned 2-byte region is never written (and the store at index 2 is out
of bounds of the 2-byte buffer), so the returned region is not the frame
[0x01, 0x00] and decoding it depends on whatever the buffer held before
the call — the round trip of the claim cannot hold with the trailing
delimiter flag set. -/
theorem c1_trailing_gap :
    encodeCOBS [] 2 true = ([(0, 1), (2, 0)], 2) ∧
    List.lookup 1 (encodeCOBS [] 2 true).1 = none := by
  decide

/-- C2 (code_bug evidence): on input [0x11, 0x22, 0x00, 0x33] with the
trailing delimiter requested, the call returns 6 but the store sequence is
0x11 at 1, 0x22 at 2, 0x03 at 0, 0x33 at 4, 0x02 at 3 and 0x00 at 6:
index 5 of the returned region 0..5 is never written and the delimiter
lands at index 6, not the bytes [0x03,0x11,0x22,0x02,0x33,0x00] at
positions 0..5 the claim states. -/
theorem c2_trailing_vectors_bug :
    encodeCOBS [17, 34, 0, 51] 6 true =
      ([(1, 17), (2, 34), (0, 3), (4, 51), (3, 2), (6, 0)], 6) ∧
    List.lookup 5 (encodeCOBS [17, 34, 0, 51] 6 true).1 = none := by
  decide

set_option maxRecDepth 8000 in
/-- C3 counterexample: encoding exactly 254 non-zero bytes without a
trailing delimiter does not return output length 255 as the claim states:
it returns 256. -/
theorem c3_cex_extra_block :
    ¬ (encodeCOBS (List.replicate 254 1) 256 false).2 = 255 := by
  decide

set_option maxRecDepth 8000 in
/-- C3 amended: when the run of 254 non-zero bytes ends precisely at the
last input byte, encodeCOBS still closes the block inside the loop (the
`code == 0xFF` test at cobs.cpp line 181 is not boundary-aware) and then
appends an empty closing block: the 254 bytes encode to the code byte 0xFF,
the 254 literal bytes, and an extra code byte 0x01, output length 256. -/
theorem c3_run254_appends_empty_block :
    (encodeCOBS (List.replicate 254 1) 256 false).2 = 256 ∧
    (encodeCOBS (List.replicate 254 1) 256 false).1 =
      (List.range 254).map (fun i => (i + 1, 1)) ++ [(0, 255), (255, 1)] := by
  decide

/-- C4: the decoder's length checks accept the well-formed two-byte stream
[0x02, 0x41] (the encoding of [0x41] with no trailing sentinel, final code
byte 2 < 0xFF) with max_output_length = 1, yet the call performs 2 stores
into the output buffer — the copied literal plus one reconstructed
sentinel byte beyond the returned decoded length 1 — exceeding the
capacity 1 the precondition check admitted. -/
theorem c4_decoder_writes_past_capacity :
    encodeCOBS [65] 2 false = ([(1, 65), (0, 2)], 2) ∧
    decodeCOBS [2, 65] 1 = ([65, 0], 1) ∧
    1 < (decodeCOBS [2, 65] 1).1.length := by
  decide

/-- C5 counterexample: input length 1 is below 2, yet decodeCOBS [0x05]
with output capacity 1 passes the length checks, runs the loop, and stores
one byte (a reconstructed zero) to the output while returning 0 — a call
the claim says writes nothing. -/
theorem c5_cex_length_one_input :
    (decodeCOBS [5] 1).1 = [0] ∧ ¬ (decodeCOBS [5] 1).1 = [] := by
  decide

/-- C5 amended: decodeCOBS returns 0 and stores nothing whenever the input
length is 0, or the output capacity is 0, or the output capacity is less
than the input length minus 1 (the checks of cobs.cpp lines 243-249, which
precede every store); input length exactly 1 is not rejected by these
checks. -/
theorem c5_length_checks (inp : List Nat) (maxOut : Nat)
    (h : inp.length = 0 ∨ maxOut = 0 ∨ maxOut < inp.length - 1) :
    decodeCOBS inp maxOut = ([], 0) := by
  rcases h with h | h | h
  · rw [decodeCOBS, if_pos (Or.inl h)]
  · rw [decodeCOBS, if_pos (Or.inr h)]
  · rw [decodeCOBS]
    by_cases h2 : inp.length = 0 ∨ maxOut = 0
    · rw [if_pos h2]
    · rw [if_neg h2, if_pos h]

/-- C5 amended, witness: a concrete undersized output capacity is rejected
with nothing stored. -/
theorem c5_length_checks_witness : decodeCOBS [1, 2, 3] 1 = ([], 0) :=
  c5_length_checks [1, 2, 3] 1 (Or.inr (Or.inr (by decide)))

/-- C6 (code_bug evidence): encoding [0x42] with the trailing delimiter
requested and the recommended capacity 3 returns 3, but stores 0x42 at 1,
0x02 at 0 and the delimiter 0x00 at index 3 — outside the returned region
0..2 (and outside the 3-byte buffer) — while index 2, the final byte of
the returned region, is never written; so the returned region does not end
with a single 0x00 delimiter as the claim states. -/
theorem c6_trailing_delimiter_misplaced :
    encodeCOBS [66] 3 true = ([(1, 66), (0, 2), (3, 0)], 3) ∧
    List.lookup 2 (encodeCOBS [66] 3 true).1 = none := by
  decide

/-- C7 counterexample: getCOBSBufferSize 254 false is 256, not the 255 the
claim states (this encoder emits an extra empty closing block for a
254-byte zero-free input, and its worst-case bound accounts for it). -/
theorem c7_cex_buffer_size_254 : ¬ getCOBSBufferSize 254 false = 255 := by
  decide

/-- C7 amended: getCOBSBufferSize returns 2 for input size 0 with the
trailing-zero flag, 1 for input size 0 without it, 256 for input size 254
without it, and 257 for input size 255 without it. -/
theorem c7_buffer_size_values :
    getCOBSBufferSize 0 true = 2 ∧ getCOBSBufferSize 0 false = 1 ∧
    getCOBSBufferSize 254 false = 256 ∧ getCOBSBufferSize 255 false = 257 := by
  decide

/-- C8 counterexample: on input [0x03, 0x00, 0x41] with output capacity 2,
decodeCOBS and the precompute-once algorithm of the spec disagree: the
claim that decodeCOBS always behaves as the precompute-once algorithm is
false at this input. -/
theorem c8_cex_boundary_policy :
    ¬ decodeCOBS [3, 0, 65] 2 = decodeCOBS_specOnce [3, 0, 65] 2 := by
  decide

/-- C8 amended: decodeCOBS tests for the sentinel only at block boundaries
and clamps code bytes against the declared input length, not against a
precomputed first-sentinel boundary; a sentinel lying strictly inside a
block's literal span is copied as a literal and decoding continues past
it.  On [0x03, 0x00, 0x41] decodeCOBS stores [0x00, 0x41, 0x00] and
returns 2, while the precompute-once algorithm stops at the sentinel at
index 1, stores nothing and returns 0. -/
theorem c8_block_boundary_retest :
    decodeCOBS [3, 0, 65] 2 = ([0, 65, 0], 2) ∧
    decodeCOBS_specOnce [3, 0, 65] 2 = ([], 0) := by
  decide

/-- C9: encodeCOBS returns 0 exactly when the supplied output capacity is
below getCOBSBufferSize (input length, flag), and in that case it stores
nothing; with sufficient capacity the returned count is at least 1, so the
error cannot occur when the caller sizes the buffer with
getCOBSBufferSize. -/
theorem c9_insufficient_buffer_iff (input : List Nat) (cap : Nat) (flag : Bool) :
    ((encodeCOBS input cap flag).2 = 0 ↔
      cap < getCOBSBufferSize input.length flag) ∧
    (cap < getCOBSBufferSize input.length flag →
      (encodeCOBS input cap flag).1 = []) := by
  by_cases hcap : cap < getCOBSBufferSize input.length flag
  · rw [encodeCOBS, if_pos hcap]
    exact ⟨by simpa using hcap, fun _ => rfl⟩
  · have hsnd := encodeLoopW_top_snd input
    have hlen : 1 ≤ (encodeLoop input 1 []).length := by
      have h := encodeLoop_length_ge input 1 []
      simp only [List.length_nil] at h
      omega
    refine ⟨⟨fun h0 => ?_, fun h => absurd h hcap⟩, fun h => absurd h hcap⟩
    exfalso
    rw [encodeCOBS, if_neg hcap] at h0
    cases flag with
    | false =>
      simp only [Bool.false_eq_true, if_false, hsnd] at h0
      omega
    | true =>
      simp only [if_true, hsnd] at h0
      omega

/-- C10: for every byte sequence s (of realizable size), the byte content
of the buffer encodeCOBS produces with no trailing delimiter — its
returned count equals the length of the block content `encodeLoop s 1 []`
and its stores lay down exactly that content — fed to decodeCOBS_inplace
(the spec's in-place decoder, identical algorithm to decodeCOBS with the
output aliased to the input) at the exact encoded length, yields the
returned count s.length with the original bytes s in the buffer's leading
portion. -/
theorem c10_inplace_roundtrip (s : List Nat) (_hbytes : ∀ b ∈ s, b < 256)
    (hsize : s.length < 2 ^ 64) :
    (encodeCOBS s (getCOBSBufferSize s.length false) false).2 =
      (encodeLoop s 1 []).length ∧
    (∀ p, List.lookup p (encodeCOBS s (getCOBSBufferSize s.length false) false).1 =
      (encodeLoop s 1 [])[p]?) ∧
    (decodeCOBS_inplace (encodeLoop s 1 [])).2 = s.length ∧
    ((decodeCOBS_inplace (encodeLoop s 1 [])).1).take s.length = s := by
  have hcap : ¬ getCOBSBufferSize s.length false < getCOBSBufferSize s.length false :=
    lt_irrefl _
  have hlen1 : s.length + 1 ≤ (encodeLoop s 1 []).length := by
    have h := encodeLoop_length_ge s 1 []
    simp only [List.length_nil] at h
    omega
  have hdecode : decodeLoop (encodeLoop s 1 []).length (encodeLoop s 1 []) = s ++ [0] := by
    have h := decodeLoop_encodeLoop s [] 1 (encodeLoop s 1 []).length rfl (by omega)
      (le_refl _)
    simpa using h
  have hne : ¬ (encodeLoop s 1 []).length = 0 := by omega
  have hinplace := inplaceLoop_spec (encodeLoop s 1 []).length (encodeLoop s 1 []) 0 0
    (encodeLoop s 1 []) rfl (le_refl 0) (le_refl _)
  rw [hdecode] at hinplace
  refine ⟨encodeCOBS_false_snd s _ hcap, fun p => encodeCOBS_false_fst s _ hcap p, ?_, ?_⟩
  · simp only [decodeCOBS_inplace, if_neg hne, hinplace]
    rw [List.length_append]
    simp only [List.length_cons, List.length_nil]
    have hpow : (2 : Nat) ^ 64 = 18446744073709551616 := by norm_num
    rw [hpow] at hsize ⊢
    omega
  · simp only [decodeCOBS_inplace, if_neg hne, hinplace]
    rw [overlay_eq_append (s ++ [0]) (encodeLoop s 1 [])
      (by rw [List.length_append]; simp only [List.length_cons, List.length_nil]; omega)]
    rw [List.take_append_of_le_length
      (by rw [List.length_append]; simp only [List.length_cons, List.length_nil]; omega)]
    rw [List.take_append_of_le_length (le_refl _), List.take_length]

/-- C10 witness: the round trip at the concrete byte sequence
[0x11, 0x22, 0x00, 0x33]. -/
theorem c10_inplace_roundtrip_witness :
    (encodeCOBS [17, 34, 0, 51] (getCOBSBufferSize [17, 34, 0, 51].length false) false).2 =
      (encodeLoop [17, 34, 0, 51] 1 []).length ∧
    (∀ p, List.lookup p
        (encodeCOBS [17, 34, 0, 51] (getCOBSBufferSize [17, 34, 0, 51].length false) false).1 =
      (encodeLoop [17, 34, 0, 51] 1 [])[p]?) ∧
    (decodeCOBS_inplace (encodeLoop [17, 34, 0, 51] 1 [])).2 = [17, 34, 0, 51].length ∧
    ((decodeCOBS_inplace (encodeLoop [17, 34, 0, 51] 1 [])).1).take [17, 34, 0, 51].length =
      [17, 34, 0, 51] :=
  c10_inplace_roundtrip [17, 34, 0, 51] (by decide) (by decide)
